import Mathlib

/-!
# Verification of the change-tracking diff engine of vscode-sshfs-plus

This development is a shallow embedding of the core of src/quickDiff.ts:
the line diff engine (bounded Myers algorithm with positional fallback),
the block extractor, the block revert (undo) engine, the block commit
(keep) operation and the baseline store.  Documents are modeled as
LF-normalized text (the engine itself normalizes CRLF to LF before any
comparison, and byte contents are modeled through their decoded text).
-/

/-- JS replace(/\r\n/g, '\n') on the character list: every CRLF pair becomes
a single LF, scanning left to right without overlap. -/
def normalizeChars : List Char → List Char
  | [] => []
  | '\r' :: '\n' :: rest => '\n' :: normalizeChars rest
  | c :: rest => c :: normalizeChars rest

/-- JS String.split('\n') on a character list: splitting an empty list gives
one empty field, and every LF starts a new field. -/
def splitCharsOnNL : List Char → List (List Char)
  | [] => [[]]
  | '\n' :: rest => [] :: splitCharsOnNL rest
  | c :: rest =>
    match splitCharsOnNL rest with
    | l :: ls => (c :: l) :: ls
    | [] => [[c]]

/-- text.replace(/\r\n/g, '\n') as used throughout quickDiff.ts. -/
def normalizeText (s : String) : String :=
  String.mk (normalizeChars s.data)

/-- text.replace(/\r\n/g, '\n').split('\n'): the normalized line sequence. -/
def splitLines (s : String) : List String :=
  (splitCharsOnNL (normalizeChars s.data)).map (fun cs => String.mk cs)

/-- lines.join('\n'): rebuild a document text from its line sequence. -/
def joinLines : List String → String
  | [] => ""
  | [l] => l
  | l :: rest => l ++ "\n" ++ joinLines rest

/-- SSHQuickDiffManager.commonPrefixLen: count equal leading lines
(the while loop stops at the first mismatch or at the shorter end). -/
def commonPrefixLen : List String → List String → Nat
  | x :: xs, y :: ys => if x = y then commonPrefixLen xs ys + 1 else 0
  | _, _ => 0

/-- Body of the while loop of SSHQuickDiffManager.commonSuffixLen: the counter
i grows while i < minB and the i-th lines from the back agree; the fuel
argument makes the recursion structural and is instantiated with minB. -/
def commonSuffixLenAux (a b : List String) (minB : Nat) : Nat → Nat → Nat
  | 0, i => i
  | fuel + 1, i =>
    if i < minB ∧ a.getD (a.length - 1 - i) "" = b.getD (b.length - 1 - i) "" then
      commonSuffixLenAux a b minB fuel (i + 1)
    else i

/-- SSHQuickDiffManager.commonSuffixLen: common trailing lines, bounded so the
suffix never overlaps the already-trimmed common prefix. -/
def commonSuffixLen (a b : List String) (prefixLen : Nat) : Nat :=
  commonSuffixLenAux a b (min a.length b.length - prefixLen) (min a.length b.length - prefixLen) 0

/-- The diagonal extension of the Myers forward pass: while x < n, y < m and
a[x] = b[y], advance both.  Returns the final x (y advances in lockstep);
the fuel argument keeps the recursion structural and any fuel of at least
a.length covers every possible extension. -/
def snake (a b : List String) : Nat → Int → Int → Int
  | 0, x, _ => x
  | fuel + 1, x, y =>
    if x < (a.length : Int) ∧ y < (b.length : Int) ∧
        a.getD x.toNat "" = b.getD y.toNat "" then
      snake a b fuel (x + 1) (y + 1)
    else x

/-- The body of one iteration of the forward-pass inner loop, for diagonal
k = 2*j - d: pick the further of the two neighbour diagonals (insertion when
k = -d, or when k is not d and the left neighbour is strictly smaller;
deletion otherwise), then extend along the diagonal.  Returns the reached x;
the reached y is x - k since the snake advances x and y in lockstep. -/
def myersStepX (a b : List String) (offset : Int) (d j : Nat) (v : Array Int) : Int :=
  let k : Int := 2 * (j : Int) - (d : Int)
  let kOff : Nat := (k + offset).toNat
  let x0 : Int :=
    if k = -(d : Int) ∨ (k ≠ (d : Int) ∧ v.getD (kOff - 1) 0 < v.getD (kOff + 1) 0) then
      v.getD (kOff + 1) 0
    else
      v.getD (kOff - 1) 0 + 1
  snake a b (a.length + 1) x0 (x0 - k)

/-- Inner loop of the forward pass of SSHQuickDiffManager.myersMatchedIndices:
the JS loop runs k = -d, -d+2, ..., d; here j counts 0, 1, ..., d with
k = 2*j - d, and count is the number of iterations left (d + 1 at entry).
Each iteration stores the reached x = myersStepX into the diagonal vector
and stops as soon as the end point (x at least n, y = x - k at least m) is
reached.  Returns the updated vector and whether the end was reached. -/
def myersInnerLoop (a b : List String) (offset : Int) (d : Nat) :
    Nat → Nat → Array Int → Array Int × Bool
  | _, 0, v => (v, false)
  | j, count + 1, v =>
    let k : Int := 2 * (j : Int) - (d : Int)
    let x1 : Int := myersStepX a b offset d j v
    let y1 : Int := x1 - k
    let v' := v.setD (k + offset).toNat x1
    if (a.length : Int) ≤ x1 ∧ (b.length : Int) ≤ y1 then (v', true)
    else myersInnerLoop a b offset d (j + 1) count v'

/-- Outer loop of the forward pass: for d = 0, 1, ..., maxD, snapshot the
diagonal vector (for backtracking) and run the inner loop; fuel counts the
rounds still allowed (maxD + 1 at entry), so fuel 0 means d exceeded maxD. -/
def myersOuterLoop (a b : List String) (offset : Int) :
    Nat → Nat → Array Int → List (Array Int) → Option Nat × List (Array Int)
  | 0, _, _, traces => (none, traces)
  | fuel + 1, d, v, traces =>
    let traces' := traces ++ [v]
    let r := myersInnerLoop a b offset d 0 (d + 1) v
    if r.2 then (some d, traces')
    else myersOuterLoop a b offset fuel (d + 1) r.1 traces'

/-- The while loop inside the backtracking for-loop: undo diagonal moves while
x > prevX and y > prevY, recording each matched index y - 1 of b. -/
def backSnake : Nat → Int → Int → Int → Int → List Nat → List Nat
  | 0, _, _, _, _, acc => acc
  | fuel + 1, x, y, px, py, acc =>
    if px < x ∧ py < y then backSnake fuel (x - 1) (y - 1) px py ((y - 1).toNat :: acc)
    else acc

/-- Backtracking pass of myersMatchedIndices: walk d = editDist, ..., 1 through
the stored snapshots, recording the b-indices visited by diagonal moves. -/
def myersBacktrackLoop (a b : List String) (offset : Int) (traces : List (Array Int)) :
    Nat → Int → Int → List Nat → Int × Int × List Nat
  | 0, x, y, acc => (x, y, acc)
  | dd + 1, x, y, acc =>
    let prev := traces.getD (dd + 1) (Array.mkArray 0 0)
    let k : Int := x - y
    let kOff : Nat := (k + offset).toNat
    let prevK : Int :=
      if k = -((dd + 1 : Nat) : Int) ∨
          (k ≠ ((dd + 1 : Nat) : Int) ∧ prev.getD (kOff - 1) 0 < prev.getD (kOff + 1) 0) then
        k + 1
      else k - 1
    let prevX := prev.getD (prevK + offset).toNat 0
    let prevY := prevX - prevK
    let acc' := backSnake (a.length + b.length + 1) x y prevX prevY acc
    myersBacktrackLoop a b offset traces dd prevX prevY acc'

/-- Remaining diagonal at d = 0: while x > 0 and y > 0 step back along the
diagonal, recording each matched b-index. -/
def finalDiag : Nat → Int → Int → List Nat → List Nat
  | 0, _, _, acc => acc
  | fuel + 1, x, y, acc =>
    if 0 < x ∧ 0 < y then finalDiag fuel (x - 1) (y - 1) ((y - 1).toNat :: acc)
    else acc

/-- Assembly of the result of myersMatchedIndices from the forward pass: if no
edit distance was found within the cap (editDist stayed -1), fall back to
the positional comparison a[i] = b[i] for i below min(n, m); otherwise
backtrack through the stored snapshots from (n, m). -/
def myersAssemble (a b : List String) (res : Option Nat × List (Array Int)) : List Nat :=
  match res.1 with
  | none => (List.range (min a.length b.length)).filter (fun i => a.getD i "" = b.getD i "")
  | some ed =>
    let offset : Int := ((min 500 (a.length + b.length) : Nat) : Int) + 1
    let bt := myersBacktrackLoop a b offset res.2 ed (a.length : Int) (b.length : Int) []
    finalDiag (a.length + b.length + 1) bt.1 bt.2.1 bt.2.2

/-- SSHQuickDiffManager.myersMatchedIndices: the set (here a sorted list) of
indices of b that are matched to equal lines of a by the bounded Myers
shortest-edit-script search; when the edit distance exceeds
maxD = min(500, n + m) the search fails and the result falls back to the
positional comparison a[i] = b[i] for i below min(n, m). -/
def myersMatchedIndices (a b : List String) : List Nat :=
  let maxD := min 500 (a.length + b.length)
  let v0 : Array Int := Array.mkArray (2 * maxD + 3) 0
  myersAssemble a b (myersOuterLoop a b ((maxD : Int) + 1) (maxD + 1) 0 v0 [])

/-- Common-prefix trim of computeChangedLines and undoBlock (the while loop in
computeChangedLines is the inlined body of commonPrefixLen). -/
def topOf (origText currText : String) : Nat :=
  commonPrefixLen (splitLines origText) (splitLines currText)

/-- Common-suffix trim, bounded away from the prefix, as in computeChangedLines
and undoBlock. -/
def bottomOf (origText currText : String) : Nat :=
  commonSuffixLen (splitLines origText) (splitLines currText) (topOf origText currText)

/-- origLines.slice(top, origLines.length - bottom): the baseline middle. -/
def origMiddleOf (origText currText : String) : List String :=
  ((splitLines origText).drop (topOf origText currText)).take
    ((splitLines origText).length - bottomOf origText currText - topOf origText currText)

/-- currLines.slice(top, currLines.length - bottom): the current middle. -/
def currMiddleOf (origText currText : String) : List String :=
  ((splitLines currText).drop (topOf origText currText)).take
    ((splitLines currText).length - bottomOf origText currText - topOf origText currText)

/-- SSHQuickDiffManager.computeChangedLines: 0-based indices of the lines of
currentText that differ from originalText. -/
def computeChangedLines (originalText currentText : String) : List Nat :=
  if originalText = currentText then []
  else
    let top := topOf originalText currentText
    let origMiddle := origMiddleOf originalText currentText
    let currMiddle := currMiddleOf originalText currentText
    if origMiddle.isEmpty then
      (List.range currMiddle.length).map (fun i => top + i)
    else if currMiddle.isEmpty then []
    else
      let matched := myersMatchedIndices origMiddle currMiddle
      ((List.range currMiddle.length).filter (fun i => ! matched.contains i)).map
        (fun i => top + i)

/-- Body of the block-grouping loop of updateDecorationsForEditor: extend the
open block while the next changed index is consecutive, otherwise close it. -/
def groupBlocksAux : List Nat → Nat → Nat → List (Nat × Nat)
  | [], start, e => [(start, e)]
  | c :: rest, start, e =>
    if c = e + 1 then groupBlocksAux rest start c
    else (start, e) :: groupBlocksAux rest c c

/-- The block extractor of updateDecorationsForEditor: group a sorted changed
line list into inclusive blocks of consecutive lines. -/
def groupBlocks : List Nat → List (Nat × Nat)
  | [] => []
  | c :: rest => groupBlocksAux rest c c

/-- The oi-advancing while loop of buildMatchMap: advance oi while the line at
oi differs from s; fuel keeps the recursion structural and orig.length
covers every possible scan. -/
def scanOiFuel (orig : List String) (s : String) : Nat → Nat → Nat
  | 0, oi => oi
  | fuel + 1, oi =>
    if oi < orig.length ∧ ¬ (orig.getD oi "" = s) then scanOiFuel orig s fuel (oi + 1)
    else oi

/-- The for-loop of buildMatchMap over the sorted matched indices of curr. -/
def buildMatchMapAux (orig curr : List String) : List Nat → Nat → List (Nat × Nat)
  | [], _ => []
  | ci :: rest, oi =>
    let oi' := scanOiFuel orig (curr.getD ci "") orig.length oi
    if oi' < orig.length then (ci, oi') :: buildMatchMapAux orig curr rest (oi' + 1)
    else buildMatchMapAux orig curr rest oi'

/-- SSHQuickDiffManager.buildMatchMap: the Map from matched curr indices to the
baseline indices carrying the equal line, built by scanning orig forward.
The JS Map (keys inserted in ascending ci order) is modeled as the
association list in insertion order; the sorted spread of the matched Set
is the ascending list of its members below curr.length. -/
def buildMatchMap (orig curr : List String) : List (Nat × Nat) :=
  if orig.length = 0 ∨ curr.length = 0 then []
  else
    let matched := myersMatchedIndices orig curr
    let sorted := (List.range curr.length).filter (fun ci => matched.contains ci)
    buildMatchMapAux orig curr sorted 0

/-- Math.max(0, startLine - top) from undoBlock, in middle coordinates. -/
def blockStartM (origText currText : String) (startLine : Nat) : Int :=
  max 0 ((startLine : Int) - (topOf origText currText : Int))

/-- Math.min(currMiddle.length - 1, endLine - top) from undoBlock. -/
def blockEndM (origText currText : String) (endLine : Nat) : Int :=
  min (((currMiddleOf origText currText).length : Int) - 1)
    ((endLine : Int) - (topOf origText currText : Int))

/-- The text transformation of SSHQuickDiffManager.undoBlock, at line level:
none models the silent no-op returns (block outside the middle region), and
some gives the line sequence of the document after the single range
replacement is applied.  In the source, newText = origBlockLines.join('\n')
followed by a '\n' exactly when endLine + 1 < currLines.length: the inserted
text always contributes at least one line, so an empty origBlockLines leaves
a single empty line in the document (join gives "" and the separator or the
surrounding breaks turn it into one empty line).  When endLine + 1 is not
below the line count, the replacement range ends at the end of the document:
for endLine equal to the last index that is the end of the last line, and
for endLine beyond it the editor clamps Position(endLine, 0) to the end of
the document as well — in both cases the current lines after startLine - 1
are consumed and no current suffix survives. -/
def undoBlockPatch (origText currText : String) (startLine endLine : Nat) :
    Option (List String) :=
  let currLines := splitLines currText
  let origMiddle := origMiddleOf origText currText
  let currMiddle := currMiddleOf origText currText
  let bS := blockStartM origText currText startLine
  let bE := blockEndM origText currText endLine
  if bS > (currMiddle.length : Int) - 1 ∨ bE < 0 then none
  else
    let matchMap := buildMatchMap origMiddle currMiddle
    let origStart := matchMap.foldl
      (fun acc p => if (p.1 : Int) < bS then max acc (p.2 + 1) else acc) 0
    let origEnd :=
      match matchMap.find? (fun p => decide (bE < (p.1 : Int))) with
      | some p => min origMiddle.length p.2
      | none => origMiddle.length
    let origBlockLines := (origMiddle.drop origStart).take (origEnd - origStart)
    let replacementLines := if origBlockLines.isEmpty then [""] else origBlockLines
    if endLine + 1 < currLines.length then
      some (currLines.take startLine ++ replacementLines ++ currLines.drop (endLine + 1))
    else
      some (currLines.take startLine ++ replacementLines)

/-- JS Map.has on the association-list model of the stores. -/
def mapHas {α : Type} (m : List (String × α)) (key : String) : Bool :=
  m.any (fun p => p.1 = key)

/-- JS Map.set: replace the value of an existing key in place, otherwise append
the new entry (Map iteration is in insertion order). -/
def mapSet {α : Type} (m : List (String × α)) (key : String) (v : α) : List (String × α) :=
  if mapHas m key then m.map (fun p => if p.1 = key then (key, v) else p)
  else m ++ [(key, v)]

/-- JS Map.get (undefined modeled as none). -/
def mapGet {α : Type} (m : List (String × α)) (key : String) : Option α :=
  (m.find? (fun p => p.1 = key)).map (fun p => p.2)

/-- SSHQuickDiffManager.cacheOriginal: store content as the baseline for key
only when no baseline is present yet.  Contents are byte sequences. -/
def cacheOriginal (m : List (String × List Nat)) (key : String) (content : List Nat) :
    List (String × List Nat) :=
  if mapHas m key then m else mapSet m key content

/-- The per-file state of SSHQuickDiffManager relevant to keep and undo:
baselines (decoded to text) and the set of modified file keys. -/
structure QDState where
  originalContents : List (String × String)
  modifiedFiles : List String

/-- SSHQuickDiffManager.keepBlock for a document with text docText: the block
bounds are ignored, the baseline becomes the current document text and the
key leaves the modified set. -/
def keepBlock (st : QDState) (key : String) (docText : String)
    (_startLine _endLine : Nat) : QDState :=
  { originalContents := mapSet st.originalContents key docText
    modifiedFiles := st.modifiedFiles.filter (fun k => ! (k = key : Bool)) }

/-- Membership of a key in the modified set (drives the M badge). -/
def isModified (st : QDState) (key : String) : Bool :=
  st.modifiedFiles.contains key

/-- SSHQuickDiffManager.undoBlock at state level: without a captured baseline
(or without an open document) nothing happens and no edit is produced. -/
def undoBlock (st : QDState) (key : String) (docText : Option String)
    (startLine endLine : Nat) : Option (List String) :=
  match mapGet st.originalContents key with
  | none => none
  | some origText =>
    match docText with
    | none => none
    | some currText => undoBlockPatch origText currText startLine endLine

/-- Modelled from the spec: the true (insert/delete) edit distance between two
line sequences, the quantity the spec's bounded-search cap is compared
against ("If edit distance exceeds maxD ... fall back to positional
comparison"). -/
def specEditDistance : List String → List String → Nat
  | [], ys => ys.length
  | x :: xs, [] => (x :: xs).length
  | x :: xs, y :: ys =>
    if x = y then specEditDistance xs ys
    else 1 + min (specEditDistance xs (y :: ys)) (specEditDistance (x :: xs) ys)

/-! ## General lemmas about the diff engine -/

theorem commonPrefixLen_self (l : List String) : commonPrefixLen l l = l.length := by
  induction l with
  | nil => rfl
  | cons x xs ih => simp [commonPrefixLen, ih]

theorem splitLines_eq_of_normalize_eq {o c : String}
    (h : normalizeText o = normalizeText c) : splitLines o = splitLines c := by
  unfold normalizeText at h
  have h2 : normalizeChars o.data = normalizeChars c.data := congrArg String.data h
  unfold splitLines
  rw [h2]

theorem computeChangedLines_eq_nil_of_currMiddle (o c : String)
    (h : currMiddleOf o c = []) : computeChangedLines o c = [] := by
  unfold computeChangedLines
  split
  · rfl
  · simp [h]

/-! ## Claims C1 to C4 -/

/-- C1, counterexample: with baseline "a\nb\n" and current "X1\nX2\na\nY\nb\n"
the diff has blocks (0,1) and (3,3); reverting block (0,1) finds an empty
baseline replacement, whose trailing separator leaves an empty line, so the
patched document is "\na\nY\nb\n", and its re-diff against the baseline is
exactly the changed-line set containing 0 and 2 — index 0 lies inside the
reverted range [0,1] — so the claimed round-trip property fails at this
input. -/
theorem c1_counterexample :
    (0, 1) ∈ groupBlocks (computeChangedLines "a\nb\n" "X1\nX2\na\nY\nb\n") ∧
    undoBlockPatch "a\nb\n" "X1\nX2\na\nY\nb\n" 0 1 = some ["", "a", "Y", "b", ""] ∧
    joinLines ["", "a", "Y", "b", ""] = "\na\nY\nb\n" ∧
    computeChangedLines "a\nb\n" "\na\nY\nb\n" = [0, 2] ∧ (0 ≤ 0 ∧ 0 ≤ 1) := by
  decide

/-- C1, amended: whenever undoBlock produces a patch for block (s, e), the
patched document consists of the current document's first s lines, then a
replacement segment, then the current document's lines after e — the edit
touches only the requested range (re-running the diff may still report
indices inside [s, e] or outside the original changed region, as the
counterexample shows, because surviving changes shift with the net line
count change of the replacement). -/
theorem c1_undo_locality (o c : String) (s e : Nat) (P : List String)
    (h : undoBlockPatch o c s e = some P) :
    ∃ rep, P = (splitLines c).take s ++ rep ++ (splitLines c).drop (e + 1) := by
  simp only [undoBlockPatch] at h
  split at h
  · exact absurd h (by simp)
  · split at h
    · exact ⟨_, (Option.some.inj h).symm⟩
    · rw [List.drop_eq_nil_of_le (show (splitLines c).length ≤ e + 1 by omega)]
      exact ⟨_, by rw [(Option.some.inj h).symm, List.append_nil]⟩

/-- C1 witness: the amended locality theorem applied at a concrete revert. -/
theorem c1_undo_locality_witness :
    undoBlockPatch "a\nb\n" "X1\nX2\na\nY\nb\n" 0 1 = some ["", "a", "Y", "b", ""] ∧
    ∃ rep, ["", "a", "Y", "b", ""] =
      (splitLines "X1\nX2\na\nY\nb\n").take 0 ++ rep ++ (splitLines "X1\nX2\na\nY\nb\n").drop 2 :=
  ⟨by decide, c1_undo_locality "a\nb\n" "X1\nX2\na\nY\nb\n" 0 1 _ (by decide)⟩

/-- C2: confirmed — the end-to-end scenario of the spec: diff of the given
baseline and current text is exactly the changed-line set containing 1 and 3,
the blocks are (1,1) and (3,3), reverting block (1,1) yields the document
"one\ntwo\nthree\nfour\n", and the remaining diff is exactly the set
containing 3. -/
theorem c2_end_to_end :
    computeChangedLines "one\ntwo\nthree\n" "one\nTWO\nthree\nfour\n" = [1, 3] ∧
    groupBlocks (computeChangedLines "one\ntwo\nthree\n" "one\nTWO\nthree\nfour\n") =
      [(1, 1), (3, 3)] ∧
    undoBlockPatch "one\ntwo\nthree\n" "one\nTWO\nthree\nfour\n" 1 1 =
      some ["one", "two", "three", "four", ""] ∧
    joinLines ["one", "two", "three", "four", ""] = "one\ntwo\nthree\nfour\n" ∧
    computeChangedLines "one\ntwo\nthree\n" "one\ntwo\nthree\nfour\n" = [3] := by
  decide

/-- C3, counterexample: a pure deletion yields an empty changed-line set even
though the normalized texts differ, so "empty iff equal after normalization"
fails in the only-if direction. -/
theorem c3_counterexample :
    computeChangedLines "a\nb\n" "a\n" = [] ∧
    ¬ normalizeText "a\nb\n" = normalizeText "a\n" := by
  decide

/-- C3, amended: if the baseline and current text agree after line-ending
normalization then the changed-line set is empty; the converse does not hold
(pure deletions also give an empty set, see the counterexample). -/
theorem c3_empty_of_normalized_eq (o c : String)
    (h : normalizeText o = normalizeText c) : computeChangedLines o c = [] := by
  apply computeChangedLines_eq_nil_of_currMiddle
  have hs := splitLines_eq_of_normalize_eq h
  unfold currMiddleOf topOf
  rw [hs, commonPrefixLen_self]
  simp

/-- C3 witness: the amended theorem applied to a CRLF/LF pair. -/
theorem c3_witness :
    normalizeText "x\r\ny" = normalizeText "x\ny" ∧
    computeChangedLines "x\r\ny" "x\ny" = [] :=
  ⟨by decide, c3_empty_of_normalized_eq "x\r\ny" "x\ny" (by decide)⟩

/-- C4: confirmed — whenever the trimmed current middle region is empty (in
particular for every deletion-only diff), computeChangedLines returns the
empty changed-line set. -/
theorem c4_deletion_only_empty (o c : String) (h : currMiddleOf o c = []) :
    computeChangedLines o c = [] :=
  computeChangedLines_eq_nil_of_currMiddle o c h

/-- C4 witness: a deletion-only pair has an empty middle and an empty diff. -/
theorem c4_witness :
    currMiddleOf "a\nx\nb\n" "a\nb\n" = [] ∧
    computeChangedLines "a\nx\nb\n" "a\nb\n" = [] :=
  ⟨by decide, c4_deletion_only_empty "a\nx\nb\n" "a\nb\n" (by decide)⟩

/-! ## Claim C6: block extraction -/

theorem groupBlocksAux_spec (rest : List Nat) :
    ∀ (s e : Nat), s ≤ e → rest.Sorted (· < ·) → (∀ x ∈ rest, e < x) →
      (∃ e2 bs2, e ≤ e2 ∧ groupBlocksAux rest s e = (s, e2) :: bs2) ∧
      (∀ p ∈ groupBlocksAux rest s e, p.1 ≤ p.2) ∧
      (groupBlocksAux rest s e).Chain' (fun p q => p.2 + 1 < q.1) ∧
      (∀ i : Nat, ((s ≤ i ∧ i ≤ e) ∨ i ∈ rest) ↔
        ∃ p ∈ groupBlocksAux rest s e, p.1 ≤ i ∧ i ≤ p.2) := by
  induction rest with
  | nil =>
    intro s e hse _ _
    refine ⟨⟨e, [], le_refl e, rfl⟩, ?_, ?_, ?_⟩
    · intro p hp
      simp only [groupBlocksAux, List.mem_singleton] at hp
      subst hp
      exact hse
    · simp [groupBlocksAux]
    · intro i
      simp [groupBlocksAux]
  | cons c rest ih =>
    intro s e hse hsort hgt
    have hc : e < c := hgt c (List.mem_cons_self c rest)
    have hsort' : rest.Sorted (· < ·) := hsort.of_cons
    have hgt' : ∀ x ∈ rest, c < x := fun x hx => (List.sorted_cons.mp hsort).1 x hx
    by_cases hcc : c = e + 1
    · have hrw : groupBlocksAux (c :: rest) s e = groupBlocksAux rest s c := by
        simp only [groupBlocksAux]
        rw [if_pos hcc]
      obtain ⟨⟨e2, bs2, he2, heq⟩, hmem, hchain, hcov⟩ := ih s c (by omega) hsort' hgt'
      rw [hrw]
      refine ⟨⟨e2, bs2, by omega, heq⟩, hmem, hchain, ?_⟩
      intro i
      rw [← hcov i]
      constructor
      · rintro (⟨ha, hb⟩ | hm)
        · exact Or.inl ⟨ha, by omega⟩
        · rcases List.mem_cons.mp hm with rfl | hm
          · exact Or.inl ⟨by omega, by omega⟩
          · exact Or.inr hm
      · rintro (⟨ha, hb⟩ | hm)
        · by_cases hi : i ≤ e
          · exact Or.inl ⟨ha, hi⟩
          · refine Or.inr (List.mem_cons.mpr (Or.inl ?_))
            omega
        · exact Or.inr (List.mem_cons_of_mem c hm)
    · have hrw : groupBlocksAux (c :: rest) s e = (s, e) :: groupBlocksAux rest c c := by
        simp only [groupBlocksAux]
        rw [if_neg hcc]
      obtain ⟨⟨e2, bs2, he2, heq⟩, hmem, hchain, hcov⟩ := ih c c (le_refl c) hsort' hgt'
      rw [hrw]
      refine ⟨⟨e, groupBlocksAux rest c c, le_refl e, rfl⟩, ?_, ?_, ?_⟩
      · intro p hp
        rcases List.mem_cons.mp hp with rfl | hp
        · exact hse
        · exact hmem p hp
      · rw [heq]
        rw [heq] at hchain
        rw [List.chain'_cons]
        refine ⟨show e + 1 < c by omega, hchain⟩
      · intro i
        constructor
        · rintro (⟨ha, hb⟩ | hm)
          · exact ⟨(s, e), List.mem_cons_self _ _, ha, hb⟩
          · rcases List.mem_cons.mp hm with rfl | hm
            · obtain ⟨p, hp, hpi⟩ := (hcov i).mp (Or.inl ⟨le_refl i, le_refl i⟩)
              exact ⟨p, List.mem_cons_of_mem _ hp, hpi⟩
            · obtain ⟨p, hp, hpi⟩ := (hcov i).mp (Or.inr hm)
              exact ⟨p, List.mem_cons_of_mem _ hp, hpi⟩
        · rintro ⟨p, hp, hpi⟩
          rcases List.mem_cons.mp hp with rfl | hp
          · exact Or.inl hpi
          · rcases (hcov i).mpr ⟨p, hp, hpi⟩ with ⟨ha, hb⟩ | hm
            · refine Or.inr (List.mem_cons.mpr (Or.inl ?_))
              omega
            · exact Or.inr (List.mem_cons_of_mem c hm)

/-- C6: confirmed — for every strictly sorted changed-line list, the extracted
blocks are well-formed ranges, pairwise non-overlapping and non-adjacent in
ascending order, and an index lies in some block exactly when it is a changed
line (so the blocks are exactly the maximal runs of consecutive indices);
in particular the set 2,3,4,7 yields exactly the blocks (2,4) and (7,7). -/
theorem c6_block_extraction :
    (∀ l : List Nat, l.Sorted (· < ·) →
      (∀ p ∈ groupBlocks l, p.1 ≤ p.2) ∧
      (groupBlocks l).Chain' (fun p q => p.2 + 1 < q.1) ∧
      (∀ i : Nat, i ∈ l ↔ ∃ p ∈ groupBlocks l, p.1 ≤ i ∧ i ≤ p.2)) ∧
    groupBlocks [2, 3, 4, 7] = [(2, 4), (7, 7)] := by
  constructor
  · intro l hl
    cases l with
    | nil =>
      refine ⟨?_, ?_, ?_⟩ <;> simp [groupBlocks]
    | cons c rest =>
      obtain ⟨_, hmem, hchain, hcov⟩ :=
        groupBlocksAux_spec rest c c (le_refl c) hl.of_cons
          (fun x hx => (List.sorted_cons.mp hl).1 x hx)
      refine ⟨hmem, hchain, ?_⟩
      intro i
      rw [show groupBlocks (c :: rest) = groupBlocksAux rest c c from rfl, ← hcov i,
        List.mem_cons]
      constructor
      · rintro (rfl | hm)
        · exact Or.inl ⟨le_refl i, le_refl i⟩
        · exact Or.inr hm
      · rintro (⟨h1, h2⟩ | hm)
        · exact Or.inl (by omega)
        · exact Or.inr hm
  · decide

/-- C6 witness: the general part applied to the concrete sorted set 2,3,4,7. -/
theorem c6_witness :
    [2, 3, 4, 7].Sorted (fun a b : Nat => a < b) ∧
    (∀ p ∈ groupBlocks [2, 3, 4, 7], p.1 ≤ p.2) ∧
    (∀ i : Nat, i ∈ [2, 3, 4, 7] ↔ ∃ p ∈ groupBlocks [2, 3, 4, 7], p.1 ≤ i ∧ i ≤ p.2) :=
  ⟨by decide,
   (c6_block_extraction.1 [2, 3, 4, 7] (by decide)).1,
   (c6_block_extraction.1 [2, 3, 4, 7] (by decide)).2.2⟩

/-! ## Claims C7 to C9: baseline store, keep, undo no-ops -/

theorem cacheOriginal_of_has {m : List (String × List Nat)} {k : String} {c : List Nat}
    (h : mapHas m k = true) : cacheOriginal m k c = m := by
  simp [cacheOriginal, h]

theorem mapGet_append_single {α : Type} (m : List (String × α)) (k : String) (v : α)
    (h : mapHas m k = false) : mapGet (m ++ [(k, v)]) k = some v := by
  induction m with
  | nil => simp [mapGet, List.find?]
  | cons p m ih =>
    simp only [mapHas, List.any_cons, Bool.or_eq_false_iff] at h
    obtain ⟨h1, h2⟩ := h
    rw [List.cons_append]
    simp only [mapGet, List.find?]
    rw [h1]
    exact ih h2

theorem mapHas_cacheOriginal (m : List (String × List Nat)) (k : String) (c : List Nat) :
    mapHas (cacheOriginal m k c) k = true := by
  by_cases h : mapHas m k = true
  · simp [cacheOriginal, h]
  · rw [Bool.not_eq_true] at h
    simp only [cacheOriginal, h, Bool.false_eq_true, if_false, mapSet, if_false]
    simp [mapHas]

theorem foldl_cacheOriginal_of_has (k : String) (cs : List (List Nat)) :
    ∀ st, mapHas st k = true →
      List.foldl (fun s c2 => cacheOriginal s k c2) st cs = st := by
  induction cs with
  | nil => intro st _; rfl
  | cons c2 cs ih =>
    intro st h
    rw [List.foldl_cons, cacheOriginal_of_has h]
    exact ih st h

/-- C7: confirmed — baseline capture is first-write-wins: a capture on a key
that already has a baseline is a no-op, a capture on a fresh key stores its
content, and after any further sequence of captures on the same key the
stored baseline is still the first captured content. -/
theorem c7_capture_first_write_wins (m : List (String × List Nat)) (key : String)
    (c : List Nat) (cs : List (List Nat)) :
    (mapHas m key = true → cacheOriginal m key c = m) ∧
    (mapHas m key = false → mapGet (cacheOriginal m key c) key = some c) ∧
    (mapHas m key = false →
      mapGet (List.foldl (fun st c2 => cacheOriginal st key c2) (cacheOriginal m key c) cs) key
        = some c) := by
  have hget : mapHas m key = false → mapGet (cacheOriginal m key c) key = some c := by
    intro h
    rw [show cacheOriginal m key c = m ++ [(key, c)] by
      simp [cacheOriginal, h, mapSet]]
    exact mapGet_append_single m key c h
  refine ⟨fun h => cacheOriginal_of_has h, hget, fun h => ?_⟩
  rw [foldl_cacheOriginal_of_has key cs _ (mapHas_cacheOriginal m key c)]
  exact hget h

/-- C7 witness: capture then two further captures on the same key keep the
first content. -/
theorem c7_witness :
    mapHas ([] : List (String × List Nat)) "f" = false ∧
    mapGet (List.foldl (fun st c2 => cacheOriginal st "f" c2)
      (cacheOriginal [] "f" [0]) [[1], [2]]) "f" = some [0] :=
  ⟨by decide, (c7_capture_first_write_wins [] "f" [0] [[1], [2]]).2.2 (by decide)⟩

theorem mapGet_map_replace {α : Type} (k : String) (v : α) :
    ∀ m : List (String × α), mapHas m k = true →
      mapGet (m.map (fun p => if p.1 = k then (k, v) else p)) k = some v := by
  intro m
  induction m with
  | nil => intro h; simp [mapHas] at h
  | cons p m ih =>
    intro h
    by_cases hp : p.1 = k
    · simp [mapGet, List.find?, hp]
    · have h2 : mapHas m k = true := by
        simpa [mapHas, List.any_cons, hp] using h
      rw [List.map_cons]
      simp only [mapGet, List.find?, if_neg hp, decide_eq_false hp]
      simpa [mapGet] using ih h2

theorem mapGet_mapSet_self {α : Type} (m : List (String × α)) (k : String) (v : α) :
    mapGet (mapSet m k v) k = some v := by
  unfold mapSet
  by_cases h : mapHas m k = true
  · rw [if_pos h]
    exact mapGet_map_replace k v m h
  · rw [Bool.not_eq_true] at h
    rw [h]
    simp only [Bool.false_eq_true, if_false]
    exact mapGet_append_single m k v h

theorem contains_filter_ne (l : List String) (k : String) :
    (l.filter (fun x => ! (x = k : Bool))).contains k = false := by
  induction l with
  | nil => rfl
  | cons x l ih =>
    by_cases hx : x = k
    · simp [List.filter_cons, hx, ih]
    · have hkx : ¬ k = x := fun hh => hx hh.symm
      simp [List.filter_cons, hx, hkx, ih]

/-- C8: confirmed — after keepBlock (with any block bounds) the key is no
longer modified, the stored baseline is the current document text, and the
diff of that new baseline against the same current text is empty. -/
theorem c8_keep_clears_modified (st : QDState) (key docText : String) (s e : Nat) :
    isModified (keepBlock st key docText s e) key = false ∧
    mapGet (keepBlock st key docText s e).originalContents key = some docText ∧
    computeChangedLines docText docText = [] := by
  refine ⟨?_, mapGet_mapSet_self st.originalContents key docText, by
    simp [computeChangedLines]⟩
  simp only [isModified, keepBlock]
  exact contains_filter_ne st.modifiedFiles key

/-- C9: confirmed — undoBlock on a key with no captured baseline produces no
edit, and undoBlock for a block whose translated middle-region range lies
entirely outside the current middle region is a silent no-op. -/
theorem c9_undo_noop (st : QDState) (key : String) (doc : Option String)
    (s e : Nat) (o c : String) :
    (mapGet st.originalContents key = none → undoBlock st key doc s e = none) ∧
    (blockStartM o c s > ((currMiddleOf o c).length : Int) - 1 ∨ blockEndM o c e < 0 →
      undoBlockPatch o c s e = none) := by
  constructor
  · intro h
    simp [undoBlock, h]
  · intro h
    simp only [undoBlockPatch]
    split
    · rfl
    · next hn => exact absurd h hn

/-- C9 witness: both no-op cases at concrete inputs. -/
theorem c9_witness :
    undoBlock ⟨[], []⟩ "k" (some "a") 0 0 = none ∧
    undoBlockPatch "a" "a" 0 0 = none :=
  ⟨(c9_undo_noop ⟨[], []⟩ "k" (some "a") 0 0 "a" "a").1 (by decide),
   (c9_undo_noop ⟨[], []⟩ "k" (some "a") 0 0 "a" "a").2 (by decide)⟩

/-! ## Claim C10: the MatchMap invariant -/

theorem scanOiFuel_ge (orig : List String) (s : String) :
    ∀ (fuel oi : Nat), oi ≤ scanOiFuel orig s fuel oi := by
  intro fuel
  induction fuel with
  | zero => intro oi; exact le_refl oi
  | succ fuel ih =>
    intro oi
    simp only [scanOiFuel]
    split
    · exact le_trans (Nat.le_succ oi) (ih (oi + 1))
    · exact le_refl oi

theorem scanOiFuel_eq_of_lt (orig : List String) (s : String) :
    ∀ (fuel oi : Nat), orig.length ≤ fuel + oi →
      scanOiFuel orig s fuel oi < orig.length →
      orig.getD (scanOiFuel orig s fuel oi) "" = s := by
  intro fuel
  induction fuel with
  | zero =>
    intro oi hf hlt
    simp only [scanOiFuel] at hlt
    omega
  | succ fuel ih =>
    intro oi hf hlt
    simp only [scanOiFuel] at hlt ⊢
    by_cases hcond : oi < orig.length ∧ ¬ (orig.getD oi "" = s)
    · rw [if_pos hcond] at hlt ⊢
      exact ih (oi + 1) (by omega) hlt
    · rw [if_neg hcond] at hlt ⊢
      rcases not_and_or.mp hcond with hn | hn
      · omega
      · exact not_not.mp hn

theorem buildMatchMapAux_spec (orig curr : List String) :
    ∀ (cis : List Nat) (oi : Nat),
      (∀ p ∈ buildMatchMapAux orig curr cis oi,
        p.1 ∈ cis ∧ oi ≤ p.2 ∧ p.2 < orig.length ∧ orig.getD p.2 "" = curr.getD p.1 "") ∧
      (cis.Pairwise (· < ·) →
        (buildMatchMapAux orig curr cis oi).Pairwise (fun p q => p.1 < q.1 ∧ p.2 < q.2)) := by
  intro cis
  induction cis with
  | nil =>
    intro oi
    constructor
    · intro p hp
      simp [buildMatchMapAux] at hp
    · intro _
      simp [buildMatchMapAux]
  | cons ci rest ih =>
    intro oi
    have hge := scanOiFuel_ge orig (curr.getD ci "") orig.length oi
    by_cases hlt : scanOiFuel orig (curr.getD ci "") orig.length oi < orig.length
    · have heq : buildMatchMapAux orig curr (ci :: rest) oi =
          (ci, scanOiFuel orig (curr.getD ci "") orig.length oi) ::
            buildMatchMapAux orig curr rest (scanOiFuel orig (curr.getD ci "") orig.length oi + 1) := by
        simp only [buildMatchMapAux]
        rw [if_pos hlt]
      rw [heq]
      constructor
      · intro p hp
        rcases List.mem_cons.mp hp with rfl | hp
        · exact ⟨List.mem_cons_self _ _, hge, hlt,
            scanOiFuel_eq_of_lt orig (curr.getD ci "") orig.length oi (by omega) hlt⟩
        · obtain ⟨h1, h2, h3, h4⟩ := (ih _).1 p hp
          exact ⟨List.mem_cons_of_mem _ h1, by omega, h3, h4⟩
      · intro hpw
        have hpw' := List.pairwise_cons.mp hpw
        rw [List.pairwise_cons]
        constructor
        · intro q hq
          obtain ⟨hq1, hq2, _, _⟩ := (ih _).1 q hq
          exact ⟨hpw'.1 q.1 hq1, by omega⟩
        · exact (ih _).2 hpw'.2
    · have heq : buildMatchMapAux orig curr (ci :: rest) oi =
          buildMatchMapAux orig curr rest (scanOiFuel orig (curr.getD ci "") orig.length oi) := by
        simp only [buildMatchMapAux]
        rw [if_neg hlt]
      rw [heq]
      constructor
      · intro p hp
        obtain ⟨h1, h2, h3, h4⟩ := (ih _).1 p hp
        exact ⟨List.mem_cons_of_mem _ h1, by omega, h3, h4⟩
      · intro hpw
        exact (ih _).2 (List.pairwise_cons.mp hpw).2

/-- C10: confirmed — every entry (ci, oi) of buildMatchMap pairs equal lines
(orig at oi equals curr at ci), its current indices belong to the Myers
matched set, and both components are strictly increasing along the map, so
the map is a strictly monotone partial injection. -/
theorem c10_matchmap_invariant (orig curr : List String) :
    (buildMatchMap orig curr).Pairwise (fun p q => p.1 < q.1 ∧ p.2 < q.2) ∧
    ∀ p ∈ buildMatchMap orig curr,
      p.2 < orig.length ∧ orig.getD p.2 "" = curr.getD p.1 "" ∧
      p.1 ∈ myersMatchedIndices orig curr ∧ p.1 < curr.length := by
  unfold buildMatchMap
  split
  · simp
  · have hsorted : ((List.range curr.length).filter
        (fun ci => (myersMatchedIndices orig curr).contains ci)).Pairwise (· < ·) :=
      List.Pairwise.filter _ (List.pairwise_lt_range curr.length)
    constructor
    · exact (buildMatchMapAux_spec orig curr _ 0).2 hsorted
    · intro p hp
      obtain ⟨h1, _, h3, h4⟩ := (buildMatchMapAux_spec orig curr _ 0).1 p hp
      have h5 := List.mem_filter.mp h1
      refine ⟨h3, h4, ?_, List.mem_range.mp h5.1⟩
      simpa using h5.2

/-- C10 witness: the invariant applied to a one-line match. -/
theorem c10_witness :
    (0, 0) ∈ buildMatchMap ["a"] ["a"] ∧
    (0, 0).2 < (["a"] : List String).length ∧
    (0, 0).1 ∈ myersMatchedIndices ["a"] ["a"] :=
  ⟨by decide,
   ((c10_matchmap_invariant ["a"] ["a"]).2 (0, 0) (by decide)).1,
   ((c10_matchmap_invariant ["a"] ["a"]).2 (0, 0) (by decide)).2.2.1⟩

/-! ## Claim C5: soundness of the bounded Myers search

The key fact is that whenever the forward pass reports success at round d,
the end point is reachable by an edit path with d non-diagonal moves, so the
true edit distance is at most d choices of maxD; contrapositively, when the
true edit distance exceeds maxD the search fails and the algorithm takes the
positional fallback branch. -/

/-- Points of the Myers edit graph reachable from (0, 0) with exactly d
non-diagonal moves: diagonal moves need the lines at the two coordinates to
agree, an insertion advances y, a deletion advances x. -/
inductive Reach (a b : List String) : Nat → Int → Int → Prop where
  | init : Reach a b 0 0 0
  | diag {d : Nat} {x y : Int} : Reach a b d x y → 0 ≤ x → 0 ≤ y →
      x < (a.length : Int) → y < (b.length : Int) →
      a.getD x.toNat "" = b.getD y.toNat "" → Reach a b d (x + 1) (y + 1)
  | ins {d : Nat} {x y : Int} : Reach a b d x y → Reach a b (d + 1) x (y + 1)
  | del {d : Nat} {x y : Int} : Reach a b d x y → Reach a b (d + 1) (x + 1) y

theorem reach_nonneg {a b : List String} {d : Nat} {x y : Int}
    (h : Reach a b d x y) : 0 ≤ x ∧ 0 ≤ y := by
  induction h with
  | init => exact ⟨le_refl 0, le_refl 0⟩
  | diag _ _ _ _ _ _ ih => omega
  | ins _ ih => omega
  | del _ ih => omega

theorem specEditDistance_nil_right (xs : List String) :
    specEditDistance xs [] = xs.length := by
  cases xs <;> simp [specEditDistance]

theorem specEditDistance_lipschitz :
    ∀ N : Nat, ∀ xs ys : List String, xs.length + ys.length ≤ N →
      (∀ x, specEditDistance (x :: xs) ys ≤ 1 + specEditDistance xs ys) ∧
      (∀ y, specEditDistance xs (y :: ys) ≤ 1 + specEditDistance xs ys) ∧
      (∀ x, specEditDistance xs ys ≤ 1 + specEditDistance (x :: xs) ys) ∧
      (∀ y, specEditDistance xs ys ≤ 1 + specEditDistance xs (y :: ys)) := by
  intro N
  induction N with
  | zero =>
    intro xs ys h
    have hx : xs = [] := List.length_eq_zero.mp (by omega)
    have hy : ys = [] := List.length_eq_zero.mp (by omega)
    subst hx; subst hy
    refine ⟨?_, ?_, ?_, ?_⟩ <;> intro z <;> simp [specEditDistance]
  | succ N ih =>
    intro xs ys h
    refine ⟨?_, ?_, ?_, ?_⟩
    · intro x
      cases ys with
      | nil =>
        simp only [specEditDistance_nil_right, specEditDistance, List.length_cons]
        omega
      | cons y ys' =>
        simp only [specEditDistance]
        by_cases hxy : x = y
        · rw [if_pos hxy]
          exact (ih xs ys' (by simp at h; omega)).2.2.2 y
        · rw [if_neg hxy]
          have := min_le_left (specEditDistance xs (y :: ys'))
            (specEditDistance (x :: xs) ys')
          omega
    · intro y
      cases xs with
      | nil =>
        simp only [specEditDistance, List.length_cons, List.length_nil]
        omega
      | cons x xs' =>
        simp only [specEditDistance]
        by_cases hxy : x = y
        · rw [if_pos hxy]
          exact (ih xs' ys (by simp at h; omega)).2.2.1 x
        · rw [if_neg hxy]
          have := min_le_right (specEditDistance xs' (y :: ys))
            (specEditDistance (x :: xs') ys)
          omega
    · intro x
      cases ys with
      | nil =>
        simp only [specEditDistance_nil_right, specEditDistance, List.length_cons]
        omega
      | cons y ys' =>
        have hm : xs.length + ys'.length ≤ N := by simp at h; omega
        simp only [specEditDistance]
        by_cases hxy : x = y
        · rw [if_pos hxy]
          exact (ih xs ys' hm).2.1 y
        · rw [if_neg hxy]
          have h1 : specEditDistance xs (y :: ys') ≤
              2 + specEditDistance xs (y :: ys') := by omega
          have h2 : specEditDistance xs (y :: ys') ≤
              2 + specEditDistance (x :: xs) ys' := by
            have ha := (ih xs ys' hm).2.1 y
            have hb := (ih xs ys' hm).2.2.1 x
            omega
          have := le_min h1 h2
          rw [min_add_add_left] at this
          omega
    · intro y
      cases xs with
      | nil =>
        simp only [specEditDistance, List.length_cons, List.length_nil]
        omega
      | cons x xs' =>
        have hm : xs'.length + ys.length ≤ N := by simp at h; omega
        simp only [specEditDistance]
        by_cases hxy : x = y
        · rw [if_pos hxy]
          exact (ih xs' ys hm).1 x
        · rw [if_neg hxy]
          have h1 : specEditDistance (x :: xs') ys ≤
              2 + specEditDistance xs' (y :: ys) := by
            have ha := (ih xs' ys hm).1 x
            have hb := (ih xs' ys hm).2.2.2 y
            omega
          have h2 : specEditDistance (x :: xs') ys ≤
              2 + specEditDistance (x :: xs') ys := by omega
          have := le_min h1 h2
          rw [min_add_add_left] at this
          omega

theorem specEditDistance_cons_left (xs ys : List String) (x : String) :
    specEditDistance (x :: xs) ys ≤ 1 + specEditDistance xs ys :=
  (specEditDistance_lipschitz (xs.length + ys.length) xs ys (le_refl _)).1 x

theorem specEditDistance_cons_right (xs ys : List String) (y : String) :
    specEditDistance xs (y :: ys) ≤ 1 + specEditDistance xs ys :=
  (specEditDistance_lipschitz (xs.length + ys.length) xs ys (le_refl _)).2.1 y

theorem reach_editDistance_le {a b : List String} {d : Nat} {x y : Int}
    (h : Reach a b d x y) :
    specEditDistance a b ≤ d + specEditDistance (a.drop x.toNat) (b.drop y.toNat) := by
  induction h with
  | init => simp
  | @diag d x y hr hx0 hy0 hxn hyn heq ih =>
    have hxN : x.toNat < a.length := by omega
    have hyN : y.toNat < b.length := by omega
    have hdx : a.drop x.toNat = a.getD x.toNat "" :: a.drop (x.toNat + 1) := by
      rw [List.drop_eq_getElem_cons hxN, List.getD_eq_getElem a "" hxN]
    have hdy : b.drop y.toNat = b.getD y.toNat "" :: b.drop (y.toNat + 1) := by
      rw [List.drop_eq_getElem_cons hyN, List.getD_eq_getElem b "" hyN]
    have hx1 : (x + 1).toNat = x.toNat + 1 := by omega
    have hy1 : (y + 1).toNat = y.toNat + 1 := by omega
    rw [hx1, hy1]
    have hmid : specEditDistance (a.drop x.toNat) (b.drop y.toNat) =
        specEditDistance (a.drop (x.toNat + 1)) (b.drop (y.toNat + 1)) := by
      rw [hdx, hdy]
      simp only [specEditDistance]
      rw [if_pos heq]
    omega
  | @ins d x y hr ih =>
    have hy0 : 0 ≤ y := (reach_nonneg hr).2
    by_cases hyb : y.toNat < b.length
    · have hdy : b.drop y.toNat = b.getD y.toNat "" :: b.drop (y.toNat + 1) := by
        rw [List.drop_eq_getElem_cons hyb, List.getD_eq_getElem b "" hyb]
      have hy1 : (y + 1).toNat = y.toNat + 1 := by omega
      rw [hy1]
      have hstep := specEditDistance_cons_right (a.drop x.toNat)
        (b.drop (y.toNat + 1)) (b.getD y.toNat "")
      rw [← hdy] at hstep
      omega
    · have hd1 : b.drop y.toNat = [] := List.drop_eq_nil_of_le (by omega)
      have hd2 : b.drop (y + 1).toNat = [] := List.drop_eq_nil_of_le (by omega)
      rw [hd2]
      rw [hd1] at ih
      omega
  | @del d x y hr ih =>
    have hx0 : 0 ≤ x := (reach_nonneg hr).1
    by_cases hxb : x.toNat < a.length
    · have hdx : a.drop x.toNat = a.getD x.toNat "" :: a.drop (x.toNat + 1) := by
        rw [List.drop_eq_getElem_cons hxb, List.getD_eq_getElem a "" hxb]
      have hx1 : (x + 1).toNat = x.toNat + 1 := by omega
      rw [hx1]
      have hstep := specEditDistance_cons_left (a.drop (x.toNat + 1))
        (b.drop y.toNat) (a.getD x.toNat "")
      rw [← hdx] at hstep
      omega
    · have hd1 : a.drop x.toNat = [] := List.drop_eq_nil_of_le (by omega)
      have hd2 : a.drop (x + 1).toNat = [] := List.drop_eq_nil_of_le (by omega)
      rw [hd2]
      rw [hd1] at ih
      omega

theorem reach_le_of_done {a b : List String} {d : Nat} {x y : Int}
    (h : Reach a b d x y) (hx : (a.length : Int) ≤ x) (hy : (b.length : Int) ≤ y) :
    specEditDistance a b ≤ d := by
  have h1 := reach_editDistance_le h
  have hx0 : 0 ≤ x := (reach_nonneg h).1
  have hy0 : 0 ≤ y := (reach_nonneg h).2
  rw [List.drop_eq_nil_of_le (show a.length ≤ x.toNat by omega),
    List.drop_eq_nil_of_le (show b.length ≤ y.toNat by omega)] at h1
  simpa [specEditDistance] using h1

theorem snake_reach (a b : List String) :
    ∀ (fuel : Nat) {d : Nat} {x y : Int}, Reach a b d x y →
      Reach a b d (snake a b fuel x y) (y + (snake a b fuel x y - x)) := by
  intro fuel
  induction fuel with
  | zero =>
    intro d x y h
    simpa [snake] using h
  | succ fuel ih =>
    intro d x y h
    simp only [snake]
    split
    · next hcond =>
      obtain ⟨h1, h2, h3⟩ := hcond
      have hx0 : 0 ≤ x := (reach_nonneg h).1
      have hy0 : 0 ≤ y := (reach_nonneg h).2
      have hstep := ih (Reach.diag h hx0 hy0 h1 h2 h3)
      have harith : y + (snake a b fuel (x + 1) (y + 1) - x) =
          (y + 1) + (snake a b fuel (x + 1) (y + 1) - (x + 1)) := by ring
      rw [harith]
      exact hstep
    · simpa using h

theorem getD_setD_ne (v : Array Int) (i j : Nat) (x : Int) (h : i ≠ j) :
    (v.setD i x).getD j 0 = v.getD j 0 := by
  unfold Array.setD
  split
  · next hi =>
    unfold Array.getD
    by_cases hj : j < v.size
    · rw [dif_pos (show j < (v.set ⟨i, hi⟩ x).size by simpa [Array.size_set] using hj),
        dif_pos hj]
      exact Array.get_set_ne v ⟨i, hi⟩ x hj h
    · rw [dif_neg (show ¬ j < (v.set ⟨i, hi⟩ x).size by simpa [Array.size_set] using hj),
        dif_neg hj]
  · rfl

theorem getD_setD_self (v : Array Int) (i : Nat) (x : Int) (h : i < v.size) :
    (v.setD i x).getD i 0 = x := by
  unfold Array.setD
  rw [dif_pos h]
  unfold Array.getD
  rw [dif_pos (show i < (v.set ⟨i, h⟩ x).size by simpa [Array.size_set] using h)]
  exact Array.getElem_set_eq v ⟨i, h⟩ x rfl _

theorem getD_mkArray_zero (n i : Nat) : (Array.mkArray n (0 : Int)).getD i 0 = 0 := by
  unfold Array.getD
  split
  · next h => exact Array.getElem_mkArray n 0 h
  · rfl

theorem myersStepX_reach (a b : List String) (maxD dp j : Nat)
    (hd : dp + 1 ≤ maxD) (hj : j ≤ dp + 1) (v : Array Int)
    (hprev : ∀ j2, j2 ≤ dp →
      Reach a b dp (v.getD (2 * j2 + (maxD + 1 - dp)) 0)
        ((v.getD (2 * j2 + (maxD + 1 - dp)) 0) - (2 * (j2 : Int) - (dp : Int)))) :
    Reach a b (dp + 1) (myersStepX a b ((maxD : Int) + 1) (dp + 1) j v)
      (myersStepX a b ((maxD : Int) + 1) (dp + 1) j v -
        (2 * (j : Int) - ((dp : Int) + 1))) := by
  have hx0 : ∀ x0 : Int,
      Reach a b (dp + 1) x0 (x0 - (2 * (j : Int) - ((dp : Int) + 1))) →
      Reach a b (dp + 1)
        (snake a b (a.length + 1) x0 (x0 - (2 * (j : Int) - ((dp : Int) + 1))))
        (snake a b (a.length + 1) x0 (x0 - (2 * (j : Int) - ((dp : Int) + 1))) -
          (2 * (j : Int) - ((dp : Int) + 1))) := by
    intro x0 h0
    have hs := snake_reach a b (a.length + 1) h0
    have harith : (x0 - (2 * (j : Int) - ((dp : Int) + 1))) +
        (snake a b (a.length + 1) x0 (x0 - (2 * (j : Int) - ((dp : Int) + 1))) - x0) =
        snake a b (a.length + 1) x0 (x0 - (2 * (j : Int) - ((dp : Int) + 1))) -
          (2 * (j : Int) - ((dp : Int) + 1)) := by ring
    rwa [harith] at hs
  simp only [myersStepX]
  have hcast : (((dp + 1 : Nat)) : Int) = (dp : Int) + 1 := by omega
  rw [hcast]
  apply hx0
  split
  · next hc =>
    have hjle : j ≤ dp := by
      rcases hc with hc | hc
      · omega
      · have := hc.1
        omega
    have hidx : ((2 * (j : Int) - ((dp : Int) + 1)) + ((maxD : Int) + 1)).toNat + 1 =
        2 * j + (maxD + 1 - dp) := by omega
    rw [hidx]
    have hr := Reach.ins (hprev j hjle)
    have harith2 : (v.getD (2 * j + (maxD + 1 - dp)) 0) - (2 * (j : Int) - (dp : Int)) + 1 =
        (v.getD (2 * j + (maxD + 1 - dp)) 0) - (2 * (j : Int) - ((dp : Int) + 1)) := by ring
    rwa [harith2] at hr
  · next hc =>
    have hkne : ¬ (2 * (j : Int) - ((dp : Int) + 1) = -((dp : Int) + 1)) :=
      fun h => hc (Or.inl h)
    have hj0 : 1 ≤ j := by omega
    have hidx : ((2 * (j : Int) - ((dp : Int) + 1)) + ((maxD : Int) + 1)).toNat - 1 =
        2 * (j - 1) + (maxD + 1 - dp) := by omega
    rw [hidx]
    have hr := Reach.del (hprev (j - 1) (by omega))
    have harith2 : v.getD (2 * (j - 1) + (maxD + 1 - dp)) 0 + 1 -
        (2 * (j : Int) - ((dp : Int) + 1)) =
        v.getD (2 * (j - 1) + (maxD + 1 - dp)) 0 - (2 * ((j - 1 : Nat) : Int) - (dp : Int)) := by
      omega
    rw [harith2]
    exact hr

theorem myersInnerLoop_sound (a b : List String) (maxD dp : Nat) (hd : dp + 1 ≤ maxD) :
    ∀ (count j : Nat) (v : Array Int),
      j + count = dp + 2 →
      v.size = 2 * maxD + 3 →
      (∀ j2, j2 ≤ dp →
        Reach a b dp (v.getD (2 * j2 + (maxD + 1 - dp)) 0)
          ((v.getD (2 * j2 + (maxD + 1 - dp)) 0) - (2 * (j2 : Int) - (dp : Int)))) →
      (∀ j2, j2 < j →
        Reach a b (dp + 1) (v.getD (2 * j2 + (maxD - dp)) 0)
          ((v.getD (2 * j2 + (maxD - dp)) 0) - (2 * (j2 : Int) - ((dp : Int) + 1)))) →
      ((myersInnerLoop a b ((maxD : Int) + 1) (dp + 1) j count v).2 = true →
        ∃ x y, Reach a b (dp + 1) x y ∧ (a.length : Int) ≤ x ∧ (b.length : Int) ≤ y) ∧
      ((myersInnerLoop a b ((maxD : Int) + 1) (dp + 1) j count v).2 = false →
        (myersInnerLoop a b ((maxD : Int) + 1) (dp + 1) j count v).1.size = 2 * maxD + 3 ∧
        ∀ j2, j2 ≤ dp + 1 →
          Reach a b (dp + 1)
            ((myersInnerLoop a b ((maxD : Int) + 1) (dp + 1) j count v).1.getD
              (2 * j2 + (maxD - dp)) 0)
            (((myersInnerLoop a b ((maxD : Int) + 1) (dp + 1) j count v).1.getD
              (2 * j2 + (maxD - dp)) 0) - (2 * (j2 : Int) - ((dp : Int) + 1)))) := by
  intro count
  induction count with
  | zero =>
    intro j v hcount hsize hprev hdone
    constructor
    · intro habs
      simp [myersInnerLoop] at habs
    · intro _
      simp only [myersInnerLoop]
      exact ⟨hsize, fun j2 hj2 => hdone j2 (by omega)⟩
  | succ c ihc =>
    intro j v hcount hsize hprev hdone
    have hj : j ≤ dp + 1 := by omega
    have hstep := myersStepX_reach a b maxD dp j hd hj v hprev
    simp only [myersInnerLoop]
    have hcast : (((dp + 1 : Nat)) : Int) = (dp : Int) + 1 := by omega
    rw [hcast]
    have hkOff : ((2 * (j : Int) - ((dp : Int) + 1)) + ((maxD : Int) + 1)).toNat =
        2 * j + (maxD - dp) := by omega
    rw [hkOff]
    split
    · next hfound =>
      constructor
      · intro _
        exact ⟨myersStepX a b ((maxD : Int) + 1) (dp + 1) j v,
          myersStepX a b ((maxD : Int) + 1) (dp + 1) j v - (2 * (j : Int) - ((dp : Int) + 1)),
          hstep, hfound.1, hfound.2⟩
      · intro habs
        simp at habs
    · next hnf =>
      have hsize' : (v.setD (2 * j + (maxD - dp))
          (myersStepX a b ((maxD : Int) + 1) (dp + 1) j v)).size = 2 * maxD + 3 := by
        rw [Array.size_setD]
        exact hsize
      have hprev' : ∀ j2, j2 ≤ dp →
          Reach a b dp ((v.setD (2 * j + (maxD - dp))
              (myersStepX a b ((maxD : Int) + 1) (dp + 1) j v)).getD
            (2 * j2 + (maxD + 1 - dp)) 0)
            (((v.setD (2 * j + (maxD - dp))
              (myersStepX a b ((maxD : Int) + 1) (dp + 1) j v)).getD
            (2 * j2 + (maxD + 1 - dp)) 0) - (2 * (j2 : Int) - (dp : Int))) := by
        intro j2 hj2
        rw [getD_setD_ne _ _ _ _ (by omega)]
        exact hprev j2 hj2
      have hdone' : ∀ j2, j2 < j + 1 →
          Reach a b (dp + 1) ((v.setD (2 * j + (maxD - dp))
              (myersStepX a b ((maxD : Int) + 1) (dp + 1) j v)).getD
            (2 * j2 + (maxD - dp)) 0)
            (((v.setD (2 * j + (maxD - dp))
              (myersStepX a b ((maxD : Int) + 1) (dp + 1) j v)).getD
            (2 * j2 + (maxD - dp)) 0) - (2 * (j2 : Int) - ((dp : Int) + 1))) := by
        intro j2 hj2
        by_cases hje : j2 = j
        · subst hje
          rw [getD_setD_self _ _ _ (by rw [hsize]; omega)]
          exact hstep
        · rw [getD_setD_ne _ _ _ _ (by omega)]
          exact hdone j2 (by omega)
      exact ihc (j + 1) _ (by omega) hsize' hprev' hdone'

theorem myersInnerLoop_round0 (a b : List String) (maxD : Nat) (v : Array Int)
    (hsize : v.size = 2 * maxD + 3)
    (h0 : ∀ i, v.getD i 0 = 0) :
    ((myersInnerLoop a b ((maxD : Int) + 1) 0 0 (0 + 1) v).2 = true →
      ∃ x y, Reach a b 0 x y ∧ (a.length : Int) ≤ x ∧ (b.length : Int) ≤ y) ∧
    ((myersInnerLoop a b ((maxD : Int) + 1) 0 0 (0 + 1) v).2 = false →
      (myersInnerLoop a b ((maxD : Int) + 1) 0 0 (0 + 1) v).1.size = 2 * maxD + 3 ∧
      ∀ j2, j2 ≤ 0 →
        Reach a b 0
          ((myersInnerLoop a b ((maxD : Int) + 1) 0 0 (0 + 1) v).1.getD
            (2 * j2 + (maxD + 1 - 0)) 0)
          (((myersInnerLoop a b ((maxD : Int) + 1) 0 0 (0 + 1) v).1.getD
            (2 * j2 + (maxD + 1 - 0)) 0) - (2 * (j2 : Int) - ((0 : Nat) : Int)))) := by
  have hk : (2 * ((0 : Nat) : Int) - ((0 : Nat) : Int)) = 0 := by omega
  have hstep : Reach a b 0 (myersStepX a b ((maxD : Int) + 1) 0 0 v)
      (myersStepX a b ((maxD : Int) + 1) 0 0 v - (2 * ((0 : Nat) : Int) - ((0 : Nat) : Int))) := by
    simp only [myersStepX]
    rw [if_pos (Or.inl (show (2 * ((0 : Nat) : Int) - ((0 : Nat) : Int)) =
      -(((0 : Nat) : Int)) by omega))]
    rw [h0 _, hk]
    have hs := snake_reach a b (a.length + 1) (Reach.init : Reach a b 0 0 0)
    have h1 : (0 : Int) - 0 = 0 := by ring
    rw [h1]
    have h2 : (0 : Int) + (snake a b (a.length + 1) 0 0 - 0) =
        snake a b (a.length + 1) 0 0 - 0 := by ring
    rw [h2] at hs
    exact hs
  have hkOff : ((2 * ((0 : Nat) : Int) - ((0 : Nat) : Int)) + ((maxD : Int) + 1)).toNat =
      maxD + 1 := by omega
  simp only [myersInnerLoop]
  rw [hkOff]
  split
  · next hfound =>
    constructor
    · intro _
      exact ⟨myersStepX a b ((maxD : Int) + 1) 0 0 v,
        myersStepX a b ((maxD : Int) + 1) 0 0 v - (2 * ((0 : Nat) : Int) - ((0 : Nat) : Int)),
        hstep, hfound.1, hfound.2⟩
    · intro habs
      simp at habs
  · next hnf =>
    constructor
    · intro habs
      simp [myersInnerLoop] at habs
    · intro _
      simp only [myersInnerLoop]
      constructor
      · rw [Array.size_setD]
        exact hsize
      · intro j2 hj2
        have hj20 : j2 = 0 := by omega
        subst hj20
        rw [show 2 * 0 + (maxD + 1 - 0) = maxD + 1 by omega]
        rw [getD_setD_self _ _ _ (by rw [hsize]; omega)]
        exact hstep

theorem myersOuterLoop_sound (a b : List String) (maxD : Nat) :
    ∀ (fuel d : Nat) (v : Array Int) (traces : List (Array Int)),
      d + fuel = maxD + 1 →
      v.size = 2 * maxD + 3 →
      (d = 0 → ∀ i, v.getD i 0 = 0) →
      (∀ dp, d = dp + 1 → ∀ j2, j2 ≤ dp →
        Reach a b dp (v.getD (2 * j2 + (maxD + 1 - dp)) 0)
          ((v.getD (2 * j2 + (maxD + 1 - dp)) 0) - (2 * (j2 : Int) - (dp : Int)))) →
      ∀ ed, (myersOuterLoop a b ((maxD : Int) + 1) fuel d v traces).1 = some ed →
        specEditDistance a b ≤ maxD := by
  intro fuel
  induction fuel with
  | zero =>
    intro d v traces hfuel hsize h0 hpre ed hed
    simp [myersOuterLoop] at hed
  | succ fuel ihf =>
    intro d v traces hfuel hsize h0 hpre ed hed
    simp only [myersOuterLoop] at hed
    cases d with
    | zero =>
      have hr0 := myersInnerLoop_round0 a b maxD v hsize (h0 rfl)
      by_cases hr : (myersInnerLoop a b ((maxD : Int) + 1) 0 0 (0 + 1) v).2 = true
      · obtain ⟨x, y, hre, hx, hy⟩ := hr0.1 hr
        have := reach_le_of_done hre hx hy
        omega
      · rw [Bool.not_eq_true] at hr
        rw [hr] at hed
        simp only [Bool.false_eq_true, if_false] at hed
        obtain ⟨hsize', hpre'⟩ := hr0.2 hr
        refine ihf 1 (myersInnerLoop a b ((maxD : Int) + 1) 0 0 (0 + 1) v).1
          (traces ++ [v]) (by omega) hsize' (by omega) ?_ ed hed
        intro dp heq j2 hj2
        have hdp0 : dp = 0 := by omega
        subst hdp0
        exact hpre' j2 hj2
    | succ dp =>
      have hd : dp + 1 ≤ maxD := by omega
      have hinner := myersInnerLoop_sound a b maxD dp hd (dp + 1 + 1) 0 v (by omega) hsize
        (hpre dp rfl) (fun j2 h => absurd h (by omega))
      by_cases hr : (myersInnerLoop a b ((maxD : Int) + 1) (dp + 1) 0 (dp + 1 + 1) v).2 = true
      · obtain ⟨x, y, hre, hx, hy⟩ := hinner.1 hr
        have := reach_le_of_done hre hx hy
        omega
      · rw [Bool.not_eq_true] at hr
        rw [hr] at hed
        simp only [Bool.false_eq_true, if_false] at hed
        obtain ⟨hsize', hpre'⟩ := hinner.2 hr
        refine ihf (dp + 1 + 1) (myersInnerLoop a b ((maxD : Int) + 1) (dp + 1) 0 (dp + 1 + 1) v).1
          (traces ++ [v]) (by omega) hsize' (by omega) ?_ ed hed
        intro dp2 heq j2 hj2
        have hdp2 : dp2 = dp + 1 := by omega
        subst hdp2
        rw [show maxD + 1 - (dp + 1) = maxD - dp by omega]
        exact hpre' j2 (by omega)

theorem myersAssemble_of_none (a b : List String) (res : Option Nat × List (Array Int))
    (h : res.1 = none) :
    myersAssemble a b res =
      (List.range (min a.length b.length)).filter
        (fun i => a.getD i "" = b.getD i "") := by
  obtain ⟨r1, r2⟩ := res
  simp only at h
  subst h
  rfl

/-- C5: confirmed — myersMatchedIndices is a total function of its inputs (so
the bounded search terminates on every pair of line sequences and repeated
calls give identical output), the search is capped at maxD = min(500, n + m)
by construction, and whenever the true edit distance exceeds maxD the result
equals the positional comparison: i is matched iff a[i] = b[i], for i below
min(n, m). -/
theorem c5_bounded_fallback (a b : List String)
    (h : min 500 (a.length + b.length) < specEditDistance a b) :
    myersMatchedIndices a b =
      (List.range (min a.length b.length)).filter
        (fun i => a.getD i "" = b.getD i "") := by
  have hrfl : myersMatchedIndices a b = myersAssemble a b
      (myersOuterLoop a b (((min 500 (a.length + b.length) : Nat) : Int) + 1)
        (min 500 (a.length + b.length) + 1) 0
        (Array.mkArray (2 * min 500 (a.length + b.length) + 3) 0) []) := rfl
  rw [hrfl]
  have hnone : (myersOuterLoop a b (((min 500 (a.length + b.length) : Nat) : Int) + 1)
      (min 500 (a.length + b.length) + 1) 0
      (Array.mkArray (2 * min 500 (a.length + b.length) + 3) 0) []).1 = none := by
    cases hres : (myersOuterLoop a b (((min 500 (a.length + b.length) : Nat) : Int) + 1)
        (min 500 (a.length + b.length) + 1) 0
        (Array.mkArray (2 * min 500 (a.length + b.length) + 3) 0) []).1 with
    | none => rfl
    | some ed =>
      exfalso
      have hle := myersOuterLoop_sound a b (min 500 (a.length + b.length))
        (min 500 (a.length + b.length) + 1) 0
        (Array.mkArray (2 * min 500 (a.length + b.length) + 3) 0) [] (by omega)
        (by rw [Array.size_mkArray]) (fun _ i => getD_mkArray_zero _ i)
        (fun dp hdp => absurd hdp (by omega)) ed hres
      omega
  exact myersAssemble_of_none a b _ hnone

theorem specEditDistance_replicate (x y : String) (hxy : ¬ x = y) :
    ∀ n m : Nat, specEditDistance (List.replicate n x) (List.replicate m y) = n + m := by
  intro n
  induction n with
  | zero =>
    intro m
    simp [specEditDistance]
  | succ n ihn =>
    intro m
    induction m with
    | zero =>
      rw [List.replicate_zero, specEditDistance_nil_right, List.length_replicate]
    | succ m ihm =>
      rw [List.replicate_succ, List.replicate_succ]
      simp only [specEditDistance]
      rw [if_neg hxy]
      rw [← List.replicate_succ, ← List.replicate_succ]
      rw [ihn (m + 1), ihm]
      have hmm2 : n + (m + 1) = n + 1 + m := by omega
      rw [hmm2, min_self]
      omega

/-- C5 witness: two 251-line sequences with no line in common have edit
distance 502, above the cap min(500, 502) = 500, and the fallback equality
holds there by the theorem. -/
theorem c5_witness :
    min 500 ((List.replicate 251 "x").length + (List.replicate 251 "y").length) <
      specEditDistance (List.replicate 251 "x") (List.replicate 251 "y") ∧
    myersMatchedIndices (List.replicate 251 "x") (List.replicate 251 "y") =
      (List.range (min (List.replicate 251 "x").length
          (List.replicate 251 "y").length)).filter
        (fun i => (List.replicate 251 "x").getD i "" = (List.replicate 251 "y").getD i "") := by
  have hgt : min 500 ((List.replicate 251 "x").length + (List.replicate 251 "y").length) <
      specEditDistance (List.replicate 251 "x") (List.replicate 251 "y") := by
    rw [specEditDistance_replicate "x" "y" (by decide) 251 251,
      List.length_replicate, List.length_replicate]
    omega
  exact ⟨hgt, c5_bounded_fallback _ _ hgt⟩
